import Mathlib

/-!
Verification development for the wflDB key-object store.

The Rust source is shallowly embedded: byte strings become `List Nat`
(each element a byte value), the single fjall partition backing a bucket
is split into its four disjoint key namespaces (`meta:`/`data:`/`chunk:`/
`chunkref:`, see `bucket.rs`), each represented as an association list,
and machine integers are `Nat` with explicit `% 2^w` where the source
performs width-limited arithmetic.  BLAKE3 content hashing is modelled by
an injective function (the identity on byte lists), which is the standard
collision-freeness assumption the source itself relies on for
content-addressed dedup.  Clock-derived metadata fields (`version`,
`created_at`) are omitted: no claim mentions them and they are drawn from
the system clock.  Backend I/O failures (fjall/serde errors) have no model
counterpart; the `Except` layer is kept exactly where the source has
logical (non-environmental) error paths.
-/

namespace WflDB

/-- Error enum mirroring `WflDBError` in `wfldb-core/src/error.rs`.
String payloads carry the same message text the source builds. -/
inductive WflDBError where
  | Storage (msg : String)
  | InvalidBucketName (msg : String)
  | InvalidKey (msg : String)
  | ObjectNotFound (key : String)
  | Serialization
  | Io
  | Internal (msg : String)
  | AuthenticationFailed (msg : String)
  | AuthorizationFailed (msg : String)
  | InvalidSignature
  | InvalidKeyPacket (msg : String)
  | ExpiredKeyPacket
  | ReplayAttack
  | KeyRevoked (key_id : String)
  | InsufficientPermissions
  deriving DecidableEq

/-- Lookup in an association-list map (models point `get` of a fjall
partition restricted to one key namespace). -/
def aget {α β : Type} [DecidableEq α] : List (α × β) → α → Option β
  | [], _ => none
  | (a, b) :: t, k => if a = k then some b else aget t k

/-- Remove a key (models fjall `remove`). -/
def aerase {α β : Type} [DecidableEq α] : List (α × β) → α → List (α × β)
  | [], _ => []
  | (a, b) :: t, k => if a = k then aerase t k else (a, b) :: aerase t k

/-- Insert/overwrite a key (models fjall `insert`). -/
def ainsert {α β : Type} [DecidableEq α] (l : List (α × β)) (k : α) (v : β) :
    List (α × β) :=
  (k, v) :: aerase l k

theorem aget_aerase {α β : Type} [DecidableEq α] (l : List (α × β)) (k k' : α) :
    aget (aerase l k) k' = if k = k' then none else aget l k' := by
  induction l with
  | nil => simp [aerase, aget]
  | cons p t ih =>
    obtain ⟨a, b⟩ := p
    simp only [aerase]
    by_cases hak : a = k
    · rw [if_pos hak, ih]
      by_cases hkk : k = k'
      · simp [hkk]
      · have hak' : ¬ a = k' := by rw [hak]; exact hkk
        simp [aget, hkk, hak']
    · rw [if_neg hak]
      by_cases hak' : a = k'
      · have hkk : ¬ k = k' := fun h => hak (by rw [h, hak'])
        simp [aget, hak', hkk]
      · simp [aget, hak', ih]

theorem aget_ainsert {α β : Type} [DecidableEq α] (l : List (α × β)) (k k' : α) (v : β) :
    aget (ainsert l k v) k' = if k = k' then some v else aget l k' := by
  by_cases h : k = k'
  · simp [ainsert, aget, h]
  · simp [ainsert, aget, h, aget_aerase]

theorem aget_ainsert_self {α β : Type} [DecidableEq α] (l : List (α × β)) (k : α) (v : β) :
    aget (ainsert l k v) k = some v := by
  simp [aget_ainsert]

theorem aerase_of_aget_none {α β : Type} [DecidableEq α] (l : List (α × β)) (k : α)
    (h : aget l k = none) : aerase l k = l := by
  induction l with
  | nil => simp [aerase]
  | cons p t ih =>
    obtain ⟨a, b⟩ := p
    by_cases hak : a = k
    · simp [aget, hak] at h
    · simp only [aget, if_neg hak] at h
      simp [aerase, hak, ih h]

/-! ### Constants (`wfldb-engine/src/lib.rs`, `storage.rs`, `wfldb-net/src/protocol.rs`) -/

/-- `StorageEngine::new` fixes `value_threshold: 64 * 1024`. -/
def VALUE_THRESHOLD : Nat := 64 * 1024

/-- `Storage::chunk_data` uses `CHUNK_SIZE = 4 * 1024 * 1024`. -/
def CHUNK_SIZE : Nat := 4 * 1024 * 1024

/-- `protocol.rs`: `MAX_SMALL_OBJECT_SIZE = 64 * 1024 * 1024` (the spec
calls this bound `MAX_BODY_SIZE`). -/
def MAX_SMALL_OBJECT_SIZE : Nat := 64 * 1024 * 1024

/-- `protocol.rs`: `MAX_HEADER_SIZE = 64 * 1024`. -/
def MAX_HEADER_SIZE : Nat := 64 * 1024

/-- Modulus of a `u32`. -/
def U32_MOD : Nat := 4294967296

/-- Modulus of a `u64`. -/
def U64_MOD : Nat := 18446744073709551616

/-! ### Core data types (`wfldb-core/src/types.rs`) -/

/-- `ContentHash::new` (BLAKE3-256).  Modelled as the identity on byte
lists: the development only ever relies on the hash being injective, which
is exactly the collision-freeness assumption behind content addressing in
the source. -/
def contentHashNew (data : List Nat) : List Nat := data

/-- `ChunkManifest` of `types.rs` (chunk hashes in order, declared chunk
size, total size). -/
structure ChunkManifest where
  chunks : List (List Nat)
  chunk_size : Nat
  total_size : Nat
  deriving DecidableEq

/-- `ObjectMetadata` of `types.rs`, without the clock-derived `version`
and `created_at` fields (no claim mentions them). -/
structure ObjectMetadata where
  size : Nat
  content_hash : Option (List Nat)
  chunk_manifest : Option ChunkManifest
  deriving DecidableEq

/-- `ObjectMetadata::new_inline`. -/
def ObjectMetadata.newInline (size : Nat) (hash : List Nat) : ObjectMetadata :=
  { size := size, content_hash := some hash, chunk_manifest := none }

/-- `ObjectMetadata::new_chunked`. -/
def ObjectMetadata.newChunked (man : ChunkManifest) : ObjectMetadata :=
  { size := man.total_size, content_hash := none, chunk_manifest := some man }

/-- `ObjectMetadata::is_chunked`. -/
def ObjectMetadata.isChunked (m : ObjectMetadata) : Bool :=
  m.chunk_manifest.isSome

/-! ### Bucket state and operations (`wfldb-engine/src/bucket.rs`)

A bucket's fjall partition keys all live in one of four textual
namespaces (`meta:<key>`, `data:<key>`, `chunk:<hex>`, `chunkref:<hex>`)
which never collide; the partition is therefore represented as four
association lists keyed by the object key (resp. chunk hash). -/

structure BState where
  metas : List (String × ObjectMetadata)
  datas : List (String × List Nat)
  chunkBlobs : List (List Nat × List Nat)
  chunkRefs : List (List Nat × Nat)
  deriving DecidableEq

/-- A freshly opened (empty) bucket partition. -/
def emptyB : BState :=
  { metas := [], datas := [], chunkBlobs := [], chunkRefs := [] }

/-- `Bucket::put_small`: rejects oversize data with
`Internal("Data too large for small object storage")` before any write,
otherwise stores metadata (inline hash) and the raw bytes. -/
def put_small (st : BState) (key : String) (data : List Nat) :
    Except WflDBError (BState × ObjectMetadata) :=
  if data.length > VALUE_THRESHOLD then
    .error (.Internal "Data too large for small object storage")
  else
    let m := ObjectMetadata.newInline (data.length % U64_MOD) (contentHashNew data)
    .ok ({ st with metas := ainsert st.metas key m,
                   datas := ainsert st.datas key data }, m)

/-- `Bucket::get_small`. -/
def get_small (st : BState) (key : String) : Option (List Nat) :=
  aget st.datas key

/-- `Bucket::get_metadata`. -/
def get_metadata (st : BState) (key : String) : Option ObjectMetadata :=
  aget st.metas key

/-- `Bucket::get_chunk`. -/
def get_chunk (st : BState) (h : List Nat) : Option (List Nat) :=
  aget st.chunkBlobs h

/-- Loop body of `Bucket::put_large`: if `chunkref:h` exists, bump the
(u32) refcount; otherwise store the blob with refcount 1. -/
def processChunk (st : BState) (c : List Nat) : BState :=
  let h := contentHashNew c
  match aget st.chunkRefs h with
  | some r => { st with chunkRefs := ainsert st.chunkRefs h ((r + 1) % U32_MOD) }
  | none => { st with chunkBlobs := ainsert st.chunkBlobs h c,
                      chunkRefs := ainsert st.chunkRefs h 1 }

/-- `Bucket::put_large`: dedup-store every chunk, then write the metadata
carrying the manifest.  The source's only error paths here are backend
I/O failures, so the model returns the new state directly. -/
def put_large (st : BState) (key : String) (cs : List (List Nat)) :
    BState × ObjectMetadata :=
  let st1 := cs.foldl processChunk st
  let man : ChunkManifest :=
    { chunks := cs.map contentHashNew,
      chunk_size := ((cs.head?.map List.length).getD 0) % U32_MOD,
      total_size := ((cs.map List.length).sum) % U64_MOD }
  let m := ObjectMetadata.newChunked man
  ({ st1 with metas := ainsert st1.metas key m }, m)

/-- Per-hash cleanup step of `Bucket::delete`: decrement `chunkref:h`, or
remove blob and refcount when the count is not above 1. -/
def decRef (st : BState) (h : List Nat) : BState :=
  match aget st.chunkRefs h with
  | none => st
  | some r =>
    if r > 1 then { st with chunkRefs := ainsert st.chunkRefs h (r - 1) }
    else { st with chunkBlobs := aerase st.chunkBlobs h,
                   chunkRefs := aerase st.chunkRefs h }

/-- `Bucket::delete`: drop metadata and inline bytes, then release one
reference per manifest entry.  Deleting a missing key is a no-op. -/
def Bucket.delete (st : BState) (key : String) : BState :=
  match aget st.metas key with
  | none => st
  | some m =>
    let st1 := { st with metas := aerase st.metas key, datas := aerase st.datas key }
    match m.chunk_manifest with
    | none => st1
    | some man => man.chunks.foldl decRef st1

/-! ### Storage facade (`wfldb-engine/src/storage.rs`)

`StorageEngine::bucket` opens (creating on first access) the partition
named `<bucket>_main`; the keyspace is modelled as an association list
from bucket name to partition state. -/

/-- The partition backing bucket `b` (empty if never written). -/
def bucketOf (ks : List (String × BState)) (b : String) : BState :=
  (aget ks b).getD emptyB

/-- `Storage::chunk_data`: split into `CHUNK_SIZE`-byte chunks, the last
one possibly shorter; empty input yields no chunks. -/
def chunkData : List Nat → List (List Nat)
  | [] => []
  | a :: l => ((a :: l).take CHUNK_SIZE) :: chunkData ((a :: l).drop CHUNK_SIZE)
  termination_by l => l.length
  decreasing_by simp [CHUNK_SIZE]; omega

/-- `Storage::put_object`: route by size against the engine's
`value_threshold`. -/
def put_object (ks : List (String × BState)) (b k : String) (data : List Nat) :
    Except WflDBError (List (String × BState) × ObjectMetadata) :=
  let bst := bucketOf ks b
  if data.length ≤ VALUE_THRESHOLD then
    match put_small bst k data with
    | .ok (bst1, m) => .ok (ainsert ks b bst1, m)
    | .error e => .error e
  else
    let pr := put_large bst k (chunkData data)
    .ok (ainsert ks b pr.1, pr.2)

/-- Chunk-gathering loop of `Storage::get_large_object`: look each
manifest hash up in the chunk store and concatenate in manifest order. -/
def gatherChunks (st : BState) : List (List Nat) → Except WflDBError (List Nat)
  | [] => .ok []
  | h :: t =>
    match get_chunk st h with
    | some cd => (gatherChunks st t).map (fun rest => cd ++ rest)
    | none => .error (.Internal "Missing chunk")

/-- `Storage::get_large_object`. -/
def get_large_object (st : BState) (m : ObjectMetadata) :
    Except WflDBError (Option (List Nat)) :=
  match m.chunk_manifest with
  | none => .error (.Internal "Missing chunk manifest")
  | some man => (gatherChunks st man.chunks).map some

/-- `Storage::get_object`: read metadata, then the inline or the chunked
path. -/
def get_object (ks : List (String × BState)) (b k : String) :
    Except WflDBError (Option (List Nat)) :=
  let bst := bucketOf ks b
  match get_metadata bst k with
  | some m =>
    if m.isChunked then get_large_object bst m else .ok (get_small bst k)
  | none => .ok none

/-- `Storage::delete_object`. -/
def delete_object (ks : List (String × BState)) (b k : String) :
    List (String × BState) :=
  ainsert ks b (Bucket.delete (bucketOf ks b) k)

/-! ### Chunk-store integrity and the put/get round trip -/

/-- Integrity of the content-addressed chunk store: every hash with a
stored refcount also has its blob stored (under the identity model of
BLAKE3 the blob stored for hash `h` is `h` itself).  `put_large` relies
on this: when `chunkref:h` already exists it bumps the count without
re-writing the blob. -/
def WFChunks (st : BState) : Prop :=
  ∀ h r, aget st.chunkRefs h = some r → aget st.chunkBlobs h = some h

/-- The store-wide version of `WFChunks` (every bucket's partition). -/
def StoreWF (ks : List (String × BState)) : Prop :=
  ∀ b, WFChunks (bucketOf ks b)

theorem WFChunks_emptyB : WFChunks emptyB := by
  intro h r hr
  simp [emptyB, aget] at hr

theorem StoreWF_nil : StoreWF [] := by
  intro b
  simp only [bucketOf, aget, Option.getD]
  exact WFChunks_emptyB

theorem processChunk_metas (st : BState) (c : List Nat) :
    (processChunk st c).metas = st.metas := by
  unfold processChunk
  cases h : aget st.chunkRefs (contentHashNew c) <;> simp [h]

theorem processChunk_datas (st : BState) (c : List Nat) :
    (processChunk st c).datas = st.datas := by
  unfold processChunk
  cases h : aget st.chunkRefs (contentHashNew c) <;> simp [h]

theorem foldl_processChunk_metas (cs : List (List Nat)) (st : BState) :
    (cs.foldl processChunk st).metas = st.metas := by
  induction cs generalizing st with
  | nil => rfl
  | cons c t ih => simp [List.foldl_cons, ih, processChunk_metas]

theorem foldl_processChunk_datas (cs : List (List Nat)) (st : BState) :
    (cs.foldl processChunk st).datas = st.datas := by
  induction cs generalizing st with
  | nil => rfl
  | cons c t ih => simp [List.foldl_cons, ih, processChunk_datas]

theorem processChunk_WF (st : BState) (c : List Nat) (hwf : WFChunks st) :
    WFChunks (processChunk st c) := by
  intro h r hr
  unfold processChunk at hr ⊢
  cases hx : aget st.chunkRefs (contentHashNew c) with
  | some r0 =>
    simp only [hx] at hr ⊢
    by_cases hc : contentHashNew c = h
    · exact hc ▸ hwf _ _ hx
    · rw [aget_ainsert, if_neg hc] at hr
      exact hwf _ _ hr
  | none =>
    simp only [hx] at hr ⊢
    by_cases hc : contentHashNew c = h
    · subst hc
      simp [aget_ainsert_self, contentHashNew]
    · rw [aget_ainsert, if_neg hc] at hr
      rw [aget_ainsert, if_neg hc]
      exact hwf _ _ hr

theorem processChunk_blob_fixed (st : BState) (c h : List Nat)
    (hb : aget st.chunkBlobs h = some h) :
    aget (processChunk st c).chunkBlobs h = some h := by
  unfold processChunk
  cases hx : aget st.chunkRefs (contentHashNew c) with
  | some r0 =>
    simp only [hx]
    exact hb
  | none =>
    simp only [hx]
    rw [aget_ainsert]
    by_cases hc : contentHashNew c = h
    · subst hc
      simp [contentHashNew]
    · rw [if_neg hc]
      exact hb

theorem foldl_processChunk_blob_fixed (cs : List (List Nat)) (st : BState) (h : List Nat)
    (hb : aget st.chunkBlobs h = some h) :
    aget ((cs.foldl processChunk st)).chunkBlobs h = some h := by
  induction cs generalizing st with
  | nil => exact hb
  | cons c t ih => exact ih _ (processChunk_blob_fixed st c h hb)

theorem foldl_processChunk_WF (cs : List (List Nat)) (st : BState) (hwf : WFChunks st) :
    WFChunks (cs.foldl processChunk st) := by
  induction cs generalizing st with
  | nil => exact hwf
  | cons c t ih => exact ih _ (processChunk_WF st c hwf)

theorem processChunk_blob_self (st : BState) (c : List Nat) (hwf : WFChunks st) :
    aget (processChunk st c).chunkBlobs c = some c := by
  have hkey : contentHashNew c = c := rfl
  unfold processChunk
  cases hx : aget st.chunkRefs (contentHashNew c) with
  | some r0 =>
    have hb := hwf _ _ hx
    rw [hkey] at hb
    simp [hx, hb]
  | none =>
    rw [hkey] at hx
    simp [hkey, hx, aget_ainsert_self]

theorem foldl_processChunk_blobs_present (cs : List (List Nat)) (st : BState)
    (hwf : WFChunks st) :
    ∀ c ∈ cs, aget ((cs.foldl processChunk st)).chunkBlobs c = some c := by
  induction cs generalizing st with
  | nil => intro c hc; cases hc
  | cons c0 t ih =>
    intro c hc
    rcases List.mem_cons.mp hc with h0 | ht
    · subst h0
      exact foldl_processChunk_blob_fixed t _ c (processChunk_blob_self st c hwf)
    · exact ih _ (processChunk_WF st c0 hwf) c ht

theorem gatherChunks_ok (st : BState) (hs : List (List Nat))
    (hp : ∀ h ∈ hs, get_chunk st h = some h) :
    gatherChunks st hs = .ok hs.flatten := by
  induction hs with
  | nil => simp [gatherChunks]
  | cons h t ih =>
    have hh : get_chunk st h = some h := hp h (by simp)
    have ht : ∀ x ∈ t, get_chunk st x = some x := fun x hx => hp x (by simp [hx])
    simp [gatherChunks, hh, ih ht, Except.map]

theorem map_contentHashNew (cs : List (List Nat)) :
    cs.map contentHashNew = cs := by
  induction cs with
  | nil => rfl
  | cons c t ih => simp [contentHashNew, ih]

theorem chunkData_flatten (d : List Nat) : (chunkData d).flatten = d := by
  induction d using chunkData.induct with
  | case1 => simp [chunkData]
  | case2 a l ih =>
    rw [chunkData]
    simp only [List.flatten_cons]
    rw [ih, List.take_append_drop]

theorem bucketOf_ainsert_self (ks : List (String × BState)) (b : String) (st : BState) :
    bucketOf (ainsert ks b st) b = st := by
  simp [bucketOf, aget_ainsert_self]

theorem get_after_put_large (bst : BState) (k : String) (cs : List (List Nat))
    (hwf : WFChunks bst) :
    get_large_object (put_large bst k cs).1 (put_large bst k cs).2 =
      .ok (some cs.flatten) := by
  have hpres := foldl_processChunk_blobs_present cs bst hwf
  simp only [put_large, get_large_object, ObjectMetadata.newChunked]
  rw [gatherChunks_ok]
  · simp [Except.map, map_contentHashNew]
  · intro c hc
    rw [map_contentHashNew] at hc
    simpa [get_chunk] using hpres c hc

/-- C1.  For every bucket, key and byte string `B` with
`|B| ≤ MAX_BODY_SIZE` (the source's `MAX_SMALL_OBJECT_SIZE`), after
`put_object` succeeds on a store whose chunk stores are intact,
`get_object` of the same bucket and key returns exactly `B` — the inline
path for `|B| ≤ VALUE_THRESHOLD` and the chunk-split/reassembly path for
larger `B` alike. -/
theorem put_get_roundtrip (ks : List (String × BState)) (b k : String) (B : List Nat)
    (hwf : StoreWF ks) (_hlen : B.length ≤ MAX_SMALL_OBJECT_SIZE) :
    ∃ ks' m, put_object ks b k B = .ok (ks', m) ∧
      get_object ks' b k = .ok (some B) := by
  by_cases hsize : B.length ≤ VALUE_THRESHOLD
  · -- inline path
    have hnot : ¬ (B.length > VALUE_THRESHOLD) := by omega
    have hput : put_object ks b k B =
        .ok (ainsert ks b { bucketOf ks b with
          metas := ainsert (bucketOf ks b).metas k
            (ObjectMetadata.newInline (B.length % U64_MOD) (contentHashNew B)),
          datas := ainsert (bucketOf ks b).datas k B },
        ObjectMetadata.newInline (B.length % U64_MOD) (contentHashNew B)) := by
      simp only [put_object, if_pos hsize, put_small, if_neg hnot]
    refine ⟨_, _, hput, ?_⟩
    simp [get_object, bucketOf, aget_ainsert_self, get_metadata, get_small,
      ObjectMetadata.newInline, ObjectMetadata.isChunked]
  · -- chunked path
    have hput : put_object ks b k B =
        .ok (ainsert ks b (put_large (bucketOf ks b) k (chunkData B)).1,
          (put_large (bucketOf ks b) k (chunkData B)).2) := by
      simp only [put_object, if_neg hsize]
    refine ⟨_, _, hput, ?_⟩
    have hro := get_after_put_large (bucketOf ks b) k (chunkData B) (hwf b)
    have hmeta : get_metadata (put_large (bucketOf ks b) k (chunkData B)).1 k =
        some (put_large (bucketOf ks b) k (chunkData B)).2 := by
      simp [put_large, get_metadata, aget_ainsert_self]
    have hchunked : ((put_large (bucketOf ks b) k (chunkData B)).2).isChunked = true := by
      simp [put_large, ObjectMetadata.newChunked, ObjectMetadata.isChunked]
    simp only [get_object, bucketOf_ainsert_self, hmeta, hchunked, if_true]
    rw [hro, chunkData_flatten]

/-- Witness for C1 at a concrete input: the empty store, bucket `"b"`,
key `"k"`, body `[0, 1, 2]`. -/
theorem put_get_roundtrip_witness :
    StoreWF [] ∧ ([0, 1, 2] : List Nat).length ≤ MAX_SMALL_OBJECT_SIZE ∧
    ∃ ks' m, put_object [] "b" "k" [0, 1, 2] = .ok (ks', m) ∧
      get_object ks' "b" "k" = .ok (some [0, 1, 2]) :=
  ⟨StoreWF_nil, by decide,
   put_get_roundtrip [] "b" "k" [0, 1, 2] StoreWF_nil (by decide)⟩

theorem chunkData_ne_nil (d : List Nat) (hd : d ≠ []) : chunkData d ≠ [] := by
  cases d with
  | nil => exact absurd rfl hd
  | cons a l =>
    rw [chunkData]
    exact List.cons_ne_nil _ _

/-- C4.  `put_object` routes by size with the boundary at
`VALUE_THRESHOLD` inclusive: a body of exactly `VALUE_THRESHOLD` bytes
goes down the inline path (metadata carries `content_hash`, is not
chunked), and a body of `VALUE_THRESHOLD + 1` bytes goes down the chunked
path with a non-empty manifest. -/
theorem put_object_threshold_boundary (ks : List (String × BState)) (b k : String)
    (d : List Nat) :
    (d.length = VALUE_THRESHOLD →
      ∃ ks' m, put_object ks b k d = .ok (ks', m) ∧
        m.content_hash = some (contentHashNew d) ∧ m.isChunked = false) ∧
    (d.length = VALUE_THRESHOLD + 1 →
      ∃ ks' m man, put_object ks b k d = .ok (ks', m) ∧
        m.chunk_manifest = some man ∧ man.chunks ≠ []) := by
  constructor
  · intro hlen
    have hle : d.length ≤ VALUE_THRESHOLD := hlen.le
    have hnot : ¬ (d.length > VALUE_THRESHOLD) := by omega
    have hput : put_object ks b k d =
        .ok (ainsert ks b { bucketOf ks b with
          metas := ainsert (bucketOf ks b).metas k
            (ObjectMetadata.newInline (d.length % U64_MOD) (contentHashNew d)),
          datas := ainsert (bucketOf ks b).datas k d },
        ObjectMetadata.newInline (d.length % U64_MOD) (contentHashNew d)) := by
      simp only [put_object, if_pos hle, put_small, if_neg hnot]
    exact ⟨_, _, hput, rfl, rfl⟩
  · intro hlen
    have hgt : ¬ d.length ≤ VALUE_THRESHOLD := by omega
    have hd : d ≠ [] := by
      intro h0
      rw [h0] at hlen
      simp [VALUE_THRESHOLD] at hlen
    have hput : put_object ks b k d =
        .ok (ainsert ks b (put_large (bucketOf ks b) k (chunkData d)).1,
          (put_large (bucketOf ks b) k (chunkData d)).2) := by
      simp only [put_object, if_neg hgt]
    have hman : (put_large (bucketOf ks b) k (chunkData d)).2.chunk_manifest =
        some { chunks := chunkData d,
               chunk_size := (((chunkData d).head?.map List.length).getD 0) % U32_MOD,
               total_size := (((chunkData d).map List.length).sum) % U64_MOD } := by
      simp [put_large, ObjectMetadata.newChunked, map_contentHashNew]
    refine ⟨_, _, _, hput, hman, ?_⟩
    exact chunkData_ne_nil d hd

/-- Witness for C4: bodies of exactly 65536 and 65537 bytes in the empty
store. -/
theorem put_object_threshold_boundary_witness :
    (List.replicate 65536 (0 : Nat)).length = VALUE_THRESHOLD ∧
    (List.replicate 65537 (0 : Nat)).length = VALUE_THRESHOLD + 1 ∧
    (∃ ks' m, put_object [] "b" "k" (List.replicate 65536 (0 : Nat)) = .ok (ks', m) ∧
      m.content_hash = some (contentHashNew (List.replicate 65536 (0 : Nat))) ∧
      m.isChunked = false) ∧
    (∃ ks' m man, put_object [] "b" "k" (List.replicate 65537 (0 : Nat)) = .ok (ks', m) ∧
      m.chunk_manifest = some man ∧ man.chunks ≠ []) := by
  have h1 : (List.replicate 65536 (0 : Nat)).length = VALUE_THRESHOLD := by
    rw [List.length_replicate, VALUE_THRESHOLD]
  have h2 : (List.replicate 65537 (0 : Nat)).length = VALUE_THRESHOLD + 1 := by
    rw [List.length_replicate, VALUE_THRESHOLD]
  exact ⟨h1, h2,
    (put_object_threshold_boundary [] "b" "k" (List.replicate 65536 (0 : Nat))).1 h1,
    (put_object_threshold_boundary [] "b" "k" (List.replicate 65537 (0 : Nat))).2 h2⟩

/-- C10.  `Bucket::put_small` called with data strictly larger than the
value threshold fails with the `Internal` error kind (not a validation
kind) by an early return placed before any write; accordingly the model
returns only the error and no successor state, so the caller's bucket
state is unchanged. -/
theorem put_small_oversize_rejected (st : BState) (k : String) (d : List Nat)
    (hd : d.length > VALUE_THRESHOLD) :
    put_small st k d = .error (.Internal "Data too large for small object storage") := by
  simp [put_small, hd]

/-- Witness for C10: 65537 bytes of zeros against the empty bucket. -/
theorem put_small_oversize_rejected_witness :
    (List.replicate 65537 (0 : Nat)).length > VALUE_THRESHOLD ∧
    put_small emptyB "k" (List.replicate 65537 (0 : Nat)) =
      .error (.Internal "Data too large for small object storage") :=
  ⟨by rw [List.length_replicate]; decide,
   put_small_oversize_rejected emptyB "k" _ (by rw [List.length_replicate]; decide)⟩

/-! ### Chunk reference counting (dedup invariant, C2/C3)

The reference count the source stores under `chunkref:h` is meant to
track how often `h` appears in the manifests of live objects; `liveCount`
computes that number from the metadata namespace. -/

/-- Number of occurrences of `x` in a list. -/
def countOcc {α : Type} [DecidableEq α] (x : α) : List α → Nat
  | [] => 0
  | a :: t => (if a = x then 1 else 0) + countOcc x t

/-- References to hash `h` made by one object's metadata (0 for inline
objects, the manifest multiplicity for chunked ones). -/
def manRefs (m : ObjectMetadata) (h : List Nat) : Nat :=
  match m.chunk_manifest with
  | none => 0
  | some man => countOcc h man.chunks

/-- Total references to `h` over a metadata namespace. -/
def metaSum (l : List (String × ObjectMetadata)) (h : List Nat) : Nat :=
  (l.map (fun p => manRefs p.2 h)).sum

/-- Total references to hash `h` from the manifests of all live objects
of the bucket. -/
def liveCount (st : BState) (h : List Nat) : Nat :=
  metaSum st.metas h

/-- The association list has pairwise distinct keys (always true of the
model states, since fjall is a map). -/
def keysNodup {α β : Type} (l : List (α × β)) : Prop :=
  (l.map Prod.fst).Nodup

theorem aget_eq_none_of_not_mem_keys {α β : Type} [DecidableEq α]
    (l : List (α × β)) (k : α) (hk : k ∉ l.map Prod.fst) : aget l k = none := by
  induction l with
  | nil => rfl
  | cons p t ih =>
    obtain ⟨a, b⟩ := p
    simp only [List.map_cons, List.mem_cons] at hk
    push_neg at hk
    have hak : ¬ a = k := fun h0 => hk.1 h0.symm
    simp [aget, hak, ih hk.2]

theorem keys_aerase_sub {α β : Type} [DecidableEq α] (l : List (α × β)) (k : α) :
    ∀ x, x ∈ (aerase l k).map Prod.fst → x ∈ l.map Prod.fst := by
  induction l with
  | nil => intro x hx; simp [aerase] at hx
  | cons p t ih =>
    obtain ⟨a, b⟩ := p
    intro x hx
    by_cases hak : a = k
    · simp only [aerase, if_pos hak] at hx
      simp [ih x hx]
    · simp only [aerase, if_neg hak, List.map_cons, List.mem_cons] at hx
      rcases hx with h0 | h1
      · simp [h0]
      · simp [ih x h1]

theorem keysNodup_aerase {α β : Type} [DecidableEq α] (l : List (α × β)) (k : α)
    (hnd : keysNodup l) : keysNodup (aerase l k) := by
  induction l with
  | nil => simpa [aerase] using hnd
  | cons p t ih =>
    obtain ⟨a, b⟩ := p
    simp only [keysNodup, List.map_cons, List.nodup_cons] at hnd
    by_cases hak : a = k
    · simp only [keysNodup, aerase, if_pos hak]
      exact ih hnd.2
    · simp only [keysNodup, aerase, if_neg hak, List.map_cons, List.nodup_cons]
      exact ⟨fun hmem => hnd.1 (keys_aerase_sub t k a hmem), ih hnd.2⟩

theorem key_not_mem_aerase {α β : Type} [DecidableEq α] (l : List (α × β)) (k : α) :
    k ∉ (aerase l k).map Prod.fst := by
  induction l with
  | nil => simp [aerase]
  | cons p t ih =>
    obtain ⟨a, b⟩ := p
    by_cases hak : a = k
    · simpa [aerase, hak] using ih
    · simp only [aerase, if_neg hak, List.map_cons, List.mem_cons]
      push_neg
      exact ⟨fun h0 => hak h0.symm, ih⟩

theorem keysNodup_ainsert {α β : Type} [DecidableEq α] (l : List (α × β)) (k : α) (v : β)
    (hnd : keysNodup l) : keysNodup (ainsert l k v) := by
  simp only [keysNodup, ainsert, List.map_cons, List.nodup_cons]
  exact ⟨key_not_mem_aerase l k, keysNodup_aerase l k hnd⟩

theorem metaSum_cons (k : String) (m : ObjectMetadata)
    (l : List (String × ObjectMetadata)) (h : List Nat) :
    metaSum ((k, m) :: l) h = manRefs m h + metaSum l h := by
  simp [metaSum]

theorem metaSum_aerase (l : List (String × ObjectMetadata)) (k : String)
    (m : ObjectMetadata) (h : List Nat) (hnd : keysNodup l) (hget : aget l k = some m) :
    metaSum l h = manRefs m h + metaSum (aerase l k) h := by
  induction l with
  | nil => simp [aget] at hget
  | cons p t ih =>
    obtain ⟨a, b⟩ := p
    simp only [keysNodup, List.map_cons, List.nodup_cons] at hnd
    by_cases hak : a = k
    · rw [aget, if_pos hak] at hget
      injection hget with hbm
      subst hbm
      have htn : aget t k = none := by
        apply aget_eq_none_of_not_mem_keys
        rw [← hak]
        exact hnd.1
      rw [metaSum_cons, aerase, if_pos hak, aerase_of_aget_none t k htn]
    · rw [aget, if_neg hak] at hget
      rw [metaSum_cons, aerase, if_neg hak, metaSum_cons, ih hnd.2 hget]
      omega

/-- Shape of the chunk namespaces relative to an intended per-hash count
`n`: the refcount entry stores exactly `n h` (absent when zero) and the
blob for `h` is present exactly when `n h` is positive. -/
def RefsShape (st : BState) (n : List Nat → Nat) : Prop :=
  ∀ h, (aget st.chunkRefs h = if n h = 0 then none else some (n h)) ∧
       (aget st.chunkBlobs h = if n h = 0 then none else some h)

theorem RefsShape_congr (st : BState) (n n' : List Nat → Nat)
    (hs : RefsShape st n) (he : ∀ h, n h = n' h) : RefsShape st n' := by
  intro h
  rw [← he h]
  exact hs h

theorem processChunk_shape (st : BState) (c : List Nat) (n : List Nat → Nat)
    (hs : RefsShape st n) (hb : n c + 1 < U32_MOD) :
    RefsShape (processChunk st c) (fun h => n h + if c = h then 1 else 0) := by
  have hkey : contentHashNew c = c := rfl
  rcases hs c with ⟨hrc, hbc⟩
  by_cases hc0 : n c = 0
  · have hnone : aget st.chunkRefs c = none := by rw [hrc, if_pos hc0]
    simp only [processChunk, hkey, hnone]
    intro h
    by_cases hch : c = h
    · subst hch
      simp [aget_ainsert_self, hc0]
    · constructor
      · rw [aget_ainsert, if_neg hch]
        simpa [hch] using (hs h).1
      · rw [aget_ainsert, if_neg hch]
        simpa [hch] using (hs h).2
  · have hsome : aget st.chunkRefs c = some (n c) := by rw [hrc, if_neg hc0]
    simp only [processChunk, hkey, hsome]
    have hmod : (n c + 1) % U32_MOD = n c + 1 := Nat.mod_eq_of_lt hb
    intro h
    by_cases hch : c = h
    · subst hch
      constructor
      · rw [aget_ainsert_self, hmod]
        have : ¬ (n c + 1 = 0) := by omega
        simp [this]
      · rw [hbc, if_neg hc0]
        simp
    · constructor
      · rw [aget_ainsert, if_neg hch]
        simpa [hch] using (hs h).1
      · simpa [hch] using (hs h).2

theorem foldl_processChunk_shape (cs : List (List Nat)) (st : BState) (n : List Nat → Nat)
    (hs : RefsShape st n) (hb : ∀ h, n h + countOcc h cs < U32_MOD) :
    RefsShape (cs.foldl processChunk st) (fun h => n h + countOcc h cs) := by
  induction cs generalizing st n with
  | nil =>
    exact RefsShape_congr _ _ _ hs (by intro h; simp [countOcc])
  | cons c t ih =>
    have hbc : n c + 1 < U32_MOD := by
      have h0 := hb c
      simp [countOcc] at h0
      omega
    have hstep := processChunk_shape st c n hs hbc
    have hb1 : ∀ h, (n h + if c = h then 1 else 0) + countOcc h t < U32_MOD := by
      intro h
      have h0 := hb h
      simp only [countOcc] at h0
      omega
    have hfold := ih (processChunk st c) _ hstep hb1
    refine RefsShape_congr _ _ _ hfold ?_
    intro h
    simp only [countOcc]
    omega

theorem decRef_metas (st : BState) (c : List Nat) : (decRef st c).metas = st.metas := by
  unfold decRef
  cases h : aget st.chunkRefs c with
  | none => rfl
  | some r =>
    by_cases hr : r > 1 <;> simp [hr]

theorem decRef_datas (st : BState) (c : List Nat) : (decRef st c).datas = st.datas := by
  unfold decRef
  cases h : aget st.chunkRefs c with
  | none => rfl
  | some r =>
    by_cases hr : r > 1 <;> simp [hr]

theorem foldl_decRef_metas (hs : List (List Nat)) (st : BState) :
    (hs.foldl decRef st).metas = st.metas := by
  induction hs generalizing st with
  | nil => rfl
  | cons c t ih => simp [List.foldl_cons, ih, decRef_metas]

theorem foldl_decRef_datas (hs : List (List Nat)) (st : BState) :
    (hs.foldl decRef st).datas = st.datas := by
  induction hs generalizing st with
  | nil => rfl
  | cons c t ih => simp [List.foldl_cons, ih, decRef_datas]

theorem decRef_shape (st : BState) (c : List Nat) (n : List Nat → Nat)
    (hs : RefsShape st n) (hge : 1 ≤ n c) :
    RefsShape (decRef st c) (fun h => n h - if c = h then 1 else 0) := by
  rcases hs c with ⟨hrc, hbc⟩
  have hc0 : ¬ n c = 0 := by omega
  have hsome : aget st.chunkRefs c = some (n c) := by rw [hrc, if_neg hc0]
  by_cases hgt : n c > 1
  · simp only [decRef, hsome, if_pos hgt]
    intro h
    by_cases hch : c = h
    · subst hch
      constructor
      · rw [aget_ainsert_self]
        have : ¬ (n c - 1 = 0) := by omega
        simp [this]
      · rw [hbc, if_neg hc0]
        have h1 : ¬ (n c - 1 = 0) := by omega
        simp [h1]
    · constructor
      · rw [aget_ainsert, if_neg hch]
        simpa [hch] using (hs h).1
      · simpa [hch] using (hs h).2
  · have hone : n c = 1 := by omega
    simp only [decRef, hsome, if_neg hgt]
    intro h
    by_cases hch : c = h
    · subst hch
      constructor
      · rw [aget_aerase, if_pos rfl]
        simp [hone]
      · rw [aget_aerase, if_pos rfl]
        simp [hone]
    · constructor
      · rw [aget_aerase, if_neg hch]
        simpa [hch] using (hs h).1
      · rw [aget_aerase, if_neg hch]
        simpa [hch] using (hs h).2

theorem foldl_decRef_shape (hs : List (List Nat)) (st : BState) (n : List Nat → Nat)
    (hsh : RefsShape st n) (hge : ∀ h, countOcc h hs ≤ n h) :
    RefsShape (hs.foldl decRef st) (fun h => n h - countOcc h hs) := by
  induction hs generalizing st n with
  | nil =>
    exact RefsShape_congr _ _ _ hsh (by intro h; simp [countOcc])
  | cons c t ih =>
    have hgc : 1 ≤ n c := by
      have h0 := hge c
      simp [countOcc] at h0
      omega
    have hstep := decRef_shape st c n hsh hgc
    have hge1 : ∀ h, countOcc h t ≤ n h - if c = h then 1 else 0 := by
      intro h
      have h0 := hge h
      simp only [countOcc] at h0
      by_cases hch : c = h <;> simp [hch] at h0 ⊢ <;> omega
    have hfold := ih (decRef st c) _ hstep hge1
    refine RefsShape_congr _ _ _ hfold ?_
    intro h
    simp only [countOcc]
    omega

/-- The refcount/dedup invariant of the chunk store: for every hash the
count is the number of live-manifest references (bounded by `u32`), the
`chunkref:` entry stores exactly that number and is absent iff it is
zero, and exactly the referenced blobs are present (one per hash). -/
def ChunkInv (st : BState) : Prop :=
  ∀ h, liveCount st h < U32_MOD ∧
    aget st.chunkRefs h = (if liveCount st h = 0 then none else some (liveCount st h)) ∧
    aget st.chunkBlobs h = (if liveCount st h = 0 then none else some h)

/-- Bookkeeping invariant: metadata keys are distinct and the chunk
namespaces satisfy `ChunkInv`. -/
def StInv (st : BState) : Prop :=
  keysNodup st.metas ∧ ChunkInv st

/-- Bucket histories in which every put lands on a key with no existing
object and no chunk's total reference count ever reaches `2^32` (the
source stores refcounts as `u32`).  Without the first restriction the
source leaks the replaced object's references (claim C3); without the
second the counter wraps. -/
inductive ReachB : BState → Prop where
  | init : ReachB emptyB
  | small (st : BState) (k : String) (d : List Nat) (st1 : BState) (m : ObjectMetadata) :
      ReachB st → aget st.metas k = none →
      put_small st k d = .ok (st1, m) → ReachB st1
  | large (st : BState) (k : String) (cs : List (List Nat)) :
      ReachB st → aget st.metas k = none →
      (∀ h, liveCount st h + countOcc h cs < U32_MOD) →
      ReachB (put_large st k cs).1
  | del (st : BState) (k : String) : ReachB st → ReachB (Bucket.delete st k)

theorem liveCount_eq (st : BState) (h : List Nat) :
    liveCount st h = metaSum st.metas h := rfl

theorem delete_not_found (st : BState) (k : String) (hm : aget st.metas k = none) :
    Bucket.delete st k = st := by
  unfold Bucket.delete
  simp only [hm]

theorem delete_found_inline (st : BState) (k : String) (m : ObjectMetadata)
    (hm : aget st.metas k = some m) (hman : m.chunk_manifest = none) :
    Bucket.delete st k =
      BState.mk (aerase st.metas k) (aerase st.datas k) st.chunkBlobs st.chunkRefs := by
  unfold Bucket.delete
  simp only [hm, hman]

theorem delete_found_chunked (st : BState) (k : String) (m : ObjectMetadata)
    (man : ChunkManifest) (hm : aget st.metas k = some m)
    (hman : m.chunk_manifest = some man) :
    Bucket.delete st k = man.chunks.foldl decRef
      (BState.mk (aerase st.metas k) (aerase st.datas k) st.chunkBlobs st.chunkRefs) := by
  unfold Bucket.delete
  simp only [hm, hman]

theorem ReachB_StInv (st : BState) (hr : ReachB st) : StInv st := by
  induction hr with
  | init =>
    refine ⟨by simp [keysNodup, emptyB], ?_⟩
    intro h
    have h0 : liveCount emptyB h = 0 := rfl
    refine ⟨?_, ?_, ?_⟩
    · rw [h0]
      norm_num [U32_MOD]
    · rw [h0]
      simp [emptyB, aget]
    · rw [h0]
      simp [emptyB, aget]
  | small st k d st1 m hr hk hps ih =>
    rcases ih with ⟨hnd, hinv⟩
    by_cases hlen : d.length > VALUE_THRESHOLD
    · simp [put_small, if_pos hlen] at hps
    · simp only [put_small, if_neg hlen, Except.ok.injEq, Prod.mk.injEq] at hps
      obtain ⟨h1, h2⟩ := hps
      subst h1
      have hl : ∀ h, liveCount { st with
          metas := ainsert st.metas k
            (ObjectMetadata.newInline (d.length % U64_MOD) (contentHashNew d)),
          datas := ainsert st.datas k d } h = liveCount st h := by
        intro h
        show metaSum (ainsert st.metas k _) h = metaSum st.metas h
        rw [ainsert, aerase_of_aget_none st.metas k hk, metaSum_cons]
        simp [manRefs, ObjectMetadata.newInline]
      constructor
      · exact keysNodup_ainsert st.metas k _ hnd
      · intro h
        rw [hl h]
        exact hinv h
  | large st k cs hr hk hb ih =>
    rcases ih with ⟨hnd, hinv⟩
    have hshape : RefsShape st (fun h => liveCount st h) :=
      fun h => ⟨(hinv h).2.1, (hinv h).2.2⟩
    have hfold := foldl_processChunk_shape cs st _ hshape hb
    have hmetf : (cs.foldl processChunk st).metas = st.metas :=
      foldl_processChunk_metas cs st
    have hl : ∀ h, liveCount (put_large st k cs).1 h =
        liveCount st h + countOcc h cs := by
      intro h
      show metaSum (ainsert (cs.foldl processChunk st).metas k _) h = _
      rw [hmetf, ainsert, aerase_of_aget_none st.metas k hk, metaSum_cons]
      simp only [manRefs, ObjectMetadata.newChunked, map_contentHashNew]
      show countOcc h cs + metaSum st.metas h = metaSum st.metas h + countOcc h cs
      omega
    constructor
    · show keysNodup (ainsert (cs.foldl processChunk st).metas k _)
      rw [hmetf]
      exact keysNodup_ainsert st.metas k _ hnd
    · intro h
      rcases hfold h with ⟨hrefs, hblobs⟩
      refine ⟨?_, ?_, ?_⟩
      · rw [hl h]
        exact hb h
      · show aget (cs.foldl processChunk st).chunkRefs h = _
        rw [hrefs, hl h]
      · show aget (cs.foldl processChunk st).chunkBlobs h = _
        rw [hblobs, hl h]
  | del st k hr ih =>
    rcases ih with ⟨hnd, hinv⟩
    cases hm : aget st.metas k with
    | none =>
      rw [delete_not_found st k hm]
      exact ⟨hnd, hinv⟩
    | some m =>
      have hdecomp : ∀ h, metaSum st.metas h =
          manRefs m h + metaSum (aerase st.metas k) h :=
        fun h => metaSum_aerase st.metas k m h hnd hm
      cases hman : m.chunk_manifest with
      | none =>
        rw [delete_found_inline st k m hm hman]
        have hl : ∀ h, metaSum (aerase st.metas k) h = liveCount st h := by
          intro h
          have hd := hdecomp h
          rw [liveCount_eq]
          simp only [manRefs, hman] at hd
          omega
        refine ⟨keysNodup_aerase st.metas k hnd, ?_⟩
        intro h
        refine ⟨?_, ?_, ?_⟩
        · show metaSum (aerase st.metas k) h < U32_MOD
          rw [hl h]
          exact (hinv h).1
        · show aget st.chunkRefs h =
            if metaSum (aerase st.metas k) h = 0 then none
            else some (metaSum (aerase st.metas k) h)
          rw [hl h]
          exact (hinv h).2.1
        · show aget st.chunkBlobs h =
            if metaSum (aerase st.metas k) h = 0 then none else some h
          rw [hl h]
          exact (hinv h).2.2
      | some man =>
        rw [delete_found_chunked st k m man hm hman]
        have hshape1 : RefsShape
            (BState.mk (aerase st.metas k) (aerase st.datas k) st.chunkBlobs st.chunkRefs)
            (fun h => liveCount st h) := by
          intro h
          exact ⟨(hinv h).2.1, (hinv h).2.2⟩
        have hge : ∀ h, countOcc h man.chunks ≤ liveCount st h := by
          intro h
          have hd := hdecomp h
          rw [liveCount_eq]
          simp only [manRefs, hman] at hd
          omega
        have hfold := foldl_decRef_shape man.chunks _ _ hshape1 hge
        have hmetf : (man.chunks.foldl decRef
            (BState.mk (aerase st.metas k) (aerase st.datas k)
              st.chunkBlobs st.chunkRefs)).metas = aerase st.metas k := by
          rw [foldl_decRef_metas]
        have hl : ∀ h, liveCount (man.chunks.foldl decRef
            (BState.mk (aerase st.metas k) (aerase st.datas k)
              st.chunkBlobs st.chunkRefs)) h =
            liveCount st h - countOcc h man.chunks := by
          intro h
          rw [liveCount_eq, hmetf]
          have hd := hdecomp h
          simp only [manRefs, hman] at hd
          rw [liveCount_eq]
          omega
        refine ⟨?_, ?_⟩
        · show keysNodup (man.chunks.foldl decRef
            (BState.mk (aerase st.metas k) (aerase st.datas k)
              st.chunkBlobs st.chunkRefs)).metas
          rw [hmetf]
          exact keysNodup_aerase st.metas k hnd
        · intro h
          rcases hfold h with ⟨hrefs, hblobs⟩
          refine ⟨?_, ?_, ?_⟩
          · rw [hl h]
            have h1 := (hinv h).1
            omega
          · rw [hrefs, hl h]
          · rw [hblobs, hl h]

/-- C2 (amended).  In bucket histories where every put lands on a key
with no existing object and no chunk's total reference count reaches
`2^32`, the chunk store satisfies the dedup/refcount invariant: at most
one blob is stored per hash, present exactly when some live manifest
references the hash, and the stored `chunkref:` count equals the total
number of live-manifest references (repeats within one manifest
included); since `delete` is one of the history steps and decrements once
per manifest occurrence, it removes blob and refcount entry exactly when
the count reaches zero.  As stated, the claim is false: a put replacing
an existing object under the same key leaves the old manifest's
references counted (see the counterexample). -/
theorem chunk_refcount_invariant (st : BState) (hr : ReachB st) : ChunkInv st :=
  (ReachB_StInv st hr).2

/-- Witness for C2 at a concrete reachable state: one `put_large` of the
single-chunk object `[[0]]` into the empty bucket. -/
theorem chunk_refcount_invariant_witness :
    ReachB (put_large emptyB "k" [[0]]).1 ∧ ChunkInv (put_large emptyB "k" [[0]]).1 := by
  have hstep : ReachB (put_large emptyB "k" [[0]]).1 := by
    refine ReachB.large emptyB "k" [[0]] ReachB.init rfl ?_
    intro h
    have h1 : liveCount emptyB h = 0 := rfl
    have h2 : countOcc h [[0]] ≤ 1 := by
      simp only [countOcc]
      split <;> omega
    have h3 : U32_MOD = 4294967296 := rfl
    rw [h1, h3]
    omega
  exact ⟨hstep, chunk_refcount_invariant _ hstep⟩

/-- Counterexample to C2 as stated: storing the single-chunk object
`[[0]]` twice under the same key — a replacement the code permits — ends
with `chunkref:h = 2` while the live manifests reference `h` only once,
so the stored refcount differs from the number of live manifest
references. -/
theorem chunk_refcount_counterexample :
    liveCount (put_large (put_large emptyB "k" [[0]]).1 "k" [[0]]).1 [0] = 1 ∧
    aget ((put_large (put_large emptyB "k" [[0]]).1 "k" [[0]]).1).chunkRefs [0] =
      some 2 ∧
    aget ((put_large (put_large emptyB "k" [[0]]).1 "k" [[0]]).1).chunkRefs [0] ≠
      some (liveCount (put_large (put_large emptyB "k" [[0]]).1 "k" [[0]]).1 [0]) := by
  refine ⟨?_, ?_, ?_⟩ <;> decide

/-- C3 (evaluation at the failing input).  Replacing the chunked object
stored under `"k"` (single chunk `[0]`) by a new chunked object (single
chunk `[1]`) releases none of the old object's resources: the old
chunk's refcount entry and blob both survive although no live manifest
references that chunk any more — `put_large` writes the new manifest
without decrementing the old manifest's references. -/
theorem put_replace_leaks_old_chunk :
    aget ((put_large (put_large emptyB "k" [[0]]).1 "k" [[1]]).1).chunkRefs [0] =
      some 1 ∧
    aget ((put_large (put_large emptyB "k" [[0]]).1 "k" [[1]]).1).chunkBlobs [0] =
      some [0] ∧
    liveCount (put_large (put_large emptyB "k" [[0]]).1 "k" [[1]]).1 [0] = 0 := by
  refine ⟨?_, ?_, ?_⟩ <;> decide

/-! ### Bucket name validation (`wfldb-core/src/types.rs`, C5) -/

/-- Rust `char::is_alphanumeric` — true when the character is Unicode
`Alphabetic` or numeric (categories Nd, Nl, No) — restricted to the
Latin-1 range of code points (`< 0x100`), on which the Unicode table is:
the ASCII digits and letters; `ª` (0xAA), `²` `³` (0xB2, 0xB3), `µ`
(0xB5), `¹` (0xB9), `º` (0xBA), `¼` `½` `¾` (0xBC–0xBE); and the letters
`À`–`Ö` (0xC0–0xD6), `Ø`–`ö` (0xD8–0xF6), `ø`–`ÿ` (0xF8–0xFF) — the two
gaps are `×` (0xD7) and `÷` (0xF7), which are symbols.  The model's
strings are lists of such code points; on that range this is exactly the
Rust predicate. -/
def rustIsAlphanumeric (c : Nat) : Bool :=
  (48 ≤ c && c ≤ 57) || (65 ≤ c && c ≤ 90) || (97 ≤ c && c ≤ 122) ||
  c == 170 || c == 178 || c == 179 || c == 181 || c == 185 || c == 186 ||
  (188 ≤ c && c ≤ 190) || (192 ≤ c && c ≤ 214) || (216 ≤ c && c ≤ 246) ||
  (248 ≤ c && c ≤ 255)

/-- `BucketId::new` of `types.rs`: rejects the empty name, rejects names
containing a character that is neither alphanumeric
(`char::is_alphanumeric`) nor `-` (45) nor `_` (95), otherwise accepts.
The source formats the offending name into the error message; the model
uses a fixed message text. -/
def BucketId.new (name : List Nat) : Except WflDBError (List Nat) :=
  if name = [] then .error (.InvalidBucketName "empty name")
  else if name.all (fun c => rustIsAlphanumeric c || c == 45 || c == 95) then .ok name
  else .error (.InvalidBucketName "invalid characters")

/-- The character class `[A-Za-z0-9_-]` stated by the spec, for comparison
with the code's Unicode-aware check. -/
def specBucketChar (c : Nat) : Bool :=
  (48 ≤ c && c ≤ 57) || (65 ≤ c && c ≤ 90) || (97 ≤ c && c ≤ 122) ||
  c == 45 || c == 95

/-- Counterexample to C5 as stated: `é` (U+00E9, code point 233) is
outside `[A-Za-z0-9_-]`, yet `BucketId::new` accepts the name consisting
of it, because Rust's `is_alphanumeric` is Unicode-aware. -/
theorem bucket_id_counterexample :
    BucketId.new [233] = .ok [233] ∧ specBucketChar 233 = false :=
  ⟨rfl, rfl⟩

/-- C5 (amended).  `BucketId::new(name)` returns `Ok` exactly when `name`
is non-empty and every character is Unicode-alphanumeric (Rust
`char::is_alphanumeric`) or `-` or `_`; every other input yields
`InvalidBucketName`.  The accepted character class strictly exceeds the
spec's `[A-Za-z0-9_-]` (see the counterexample). -/
theorem bucket_id_new_spec (name : List Nat) :
    (BucketId.new name = .ok name ↔
      (name ≠ [] ∧ ∀ c ∈ name, (rustIsAlphanumeric c || c == 45 || c == 95) = true)) ∧
    ((∃ msg, BucketId.new name = .error (.InvalidBucketName msg)) ↔
      ¬ (name ≠ [] ∧ ∀ c ∈ name, (rustIsAlphanumeric c || c == 45 || c == 95) = true)) := by
  by_cases h0 : name = []
  · subst h0
    have heq : BucketId.new [] = .error (.InvalidBucketName "empty name") := rfl
    constructor
    · constructor
      · intro hok
        rw [heq] at hok
        cases hok
      · intro hcon
        exact absurd rfl hcon.1
    · constructor
      · intro _ hcon
        exact absurd rfl hcon.1
      · intro _
        exact ⟨"empty name", heq⟩
  · by_cases hall : ∀ c ∈ name, (rustIsAlphanumeric c || c == 45 || c == 95) = true
    · have hb : name.all (fun c => rustIsAlphanumeric c || c == 45 || c == 95) = true := by
        rw [List.all_eq_true]
        exact hall
      have heq : BucketId.new name = .ok name := by
        simp [BucketId.new, h0, hb]
      constructor
      · exact Iff.intro (fun _ => ⟨h0, hall⟩) (fun _ => heq)
      · constructor
        · intro hex
          rcases hex with ⟨msg, hmsg⟩
          rw [heq] at hmsg
          cases hmsg
        · intro hcon
          exact absurd ⟨h0, hall⟩ hcon
    · have hb : ¬ (name.all (fun c => rustIsAlphanumeric c || c == 45 || c == 95) = true) := by
        rw [List.all_eq_true]
        exact hall
      have heq : BucketId.new name = .error (.InvalidBucketName "invalid characters") := by
        simp [BucketId.new, h0, hb]
      constructor
      · constructor
        · intro hok
          rw [heq] at hok
          cases hok
        · intro hcon
          exact absurd hcon.2 hall
      · constructor
        · intro _ hcon
          exact hall hcon.2
        · intro _
          exact ⟨"invalid characters", heq⟩

/-! ### Nonce replay cache (`wfldb-core/src/auth/canonical.rs`, C6) -/

/-- `NonceCache::cleanup_old_nonces`: retain entries whose recorded
timestamp satisfies `timestamp + window ≥ now`. -/
def cleanupOldNonces (cache : List (String × Nat)) (window now : Nat) :
    List (String × Nat) :=
  cache.filter (fun p => decide (now ≤ p.2 + window))

/-- `NonceCache::check_nonce`.  The cache maps nonce to the timestamp it
was first accepted at; `window` is `window_seconds` and `now` (the
`SystemTime::now()` reading) is an explicit parameter.  The source's
`u64` additions are modelled on `Nat` without wrap: wrap would need a
value within `window` of `2^64`; for attacker-supplied `ts` that large
both the wrapped and the unwrapped comparison reject (for the realistic
clock readings of `now` they agree everywhere). -/
def checkNonce (cache : List (String × Nat)) (window now : Nat)
    (nonce : String) (ts : Nat) : Except WflDBError (List (String × Nat)) :=
  if ts + window < now ∨ now + window < ts then .error .ReplayAttack
  else
    match aget cache nonce with
    | some used =>
      if now ≤ used + window then .error .ReplayAttack
      else .ok (cleanupOldNonces (ainsert cache nonce ts) window now)
    | none => .ok (cleanupOldNonces (ainsert cache nonce ts) window now)

theorem aget_cleanup_head (cache : List (String × Nat)) (window now : Nat)
    (nonce : String) (ts : Nat) (hkeep : now ≤ ts + window) :
    aget (cleanupOldNonces (ainsert cache nonce ts) window now) nonce = some ts := by
  unfold cleanupOldNonces ainsert
  rw [List.filter_cons]
  simp [hkeep, aget]

/-- C6.  `check_nonce(nonce, ts)` succeeds iff `|now − ts| ≤ W` and the
nonce is not already recorded with a timestamp still inside the window;
consequently a first check of a fresh nonce with the current timestamp
succeeds, any second check of the same nonce while the recorded
timestamp is within the window fails with `ReplayAttack`, and any check
whose timestamp differs from `now` by more than `W` fails with
`ReplayAttack`. -/
theorem check_nonce_spec (cache : List (String × Nat)) (window now : Nat)
    (nonce : String) (ts : Nat) :
    ((∃ cache2, checkNonce cache window now nonce ts = .ok cache2) ↔
      (now ≤ ts + window ∧ ts ≤ now + window ∧
        ∀ used, aget cache nonce = some used → used + window < now)) ∧
    (∀ cache2, checkNonce cache window now nonce ts = .ok cache2 →
      ∀ now2 ts2, now2 ≤ ts + window →
        checkNonce cache2 window now2 nonce ts2 = .error .ReplayAttack) ∧
    (∀ ts2, ts2 + window < now ∨ now + window < ts2 →
      checkNonce cache window now nonce ts2 = .error .ReplayAttack) := by
  refine ⟨?_, ?_, ?_⟩
  · by_cases hw : ts + window < now ∨ now + window < ts
    · constructor
      · intro hex
        rcases hex with ⟨c2, hc2⟩
        simp [checkNonce, hw] at hc2
      · intro hcon
        rcases hw with hw | hw <;> omega
    · have hw1 : now ≤ ts + window := by omega
      have hw2 : ts ≤ now + window := by omega
      cases hn : aget cache nonce with
      | none =>
        constructor
        · intro _
          exact ⟨hw1, hw2, fun used hused => by cases hused⟩
        · intro _
          exact ⟨cleanupOldNonces (ainsert cache nonce ts) window now,
            by simp [checkNonce, hw, hn]⟩
      | some used =>
        by_cases hu : now ≤ used + window
        · constructor
          · intro hex
            rcases hex with ⟨c2, hc2⟩
            simp [checkNonce, hw, hn, hu] at hc2
          · intro hcon
            have := hcon.2.2 used rfl
            omega
        · constructor
          · intro _
            refine ⟨hw1, hw2, fun u hu2 => ?_⟩
            injection hu2 with he
            omega
          · intro _
            exact ⟨cleanupOldNonces (ainsert cache nonce ts) window now,
              by simp [checkNonce, hw, hn, hu]⟩
  · intro cache2 hok now2 ts2 hwin
    by_cases hw : ts + window < now ∨ now + window < ts
    · simp [checkNonce, hw] at hok
    · have hkeep : now ≤ ts + window := by omega
      have hc2 : cache2 = cleanupOldNonces (ainsert cache nonce ts) window now := by
        cases hn : aget cache nonce with
        | none =>
          simp [checkNonce, hw, hn] at hok
          exact hok.symm
        | some used =>
          by_cases hu : now ≤ used + window
          · simp [checkNonce, hw, hn, hu] at hok
          · simp [checkNonce, hw, hn, hu] at hok
            exact hok.symm
      have hlook : aget cache2 nonce = some ts := by
        rw [hc2]
        exact aget_cleanup_head cache window now nonce ts hkeep
      by_cases hw2 : ts2 + window < now2 ∨ now2 + window < ts2
      · simp [checkNonce, hw2]
      · simp [checkNonce, hw2, hlook, hwin]
  · intro ts2 hcase
    simp [checkNonce, hcase]

/-- Witness for C6: window 300, clock at 1000.  A fresh nonce checks out
once, its replay 100 seconds later is rejected, and a timestamp 600
seconds in the past is rejected. -/
theorem check_nonce_spec_witness :
    checkNonce [] 300 1000 "n" 1000 = .ok [("n", 1000)] ∧
    checkNonce [("n", 1000)] 300 1100 "n" 1100 = .error .ReplayAttack ∧
    checkNonce [] 300 1000 "n" 400 = .error .ReplayAttack :=
  ⟨rfl,
   (check_nonce_spec [] 300 1000 "n" 1000).2.1 [("n", 1000)] rfl 1100 1100 (by omega),
   (check_nonce_spec [] 300 1000 "n" 0).2.2 400 (Or.inl (by omega))⟩

/-! ### Capability tokens and delegation (`wfldb-core/src/auth/jwt.rs`,
`wfldb-core/src/auth/delegation.rs`, C7/C8)

The signing layer (`KeyPacket::create` / `parse`) only wraps the claims
in an Ed25519-signed JWT; its failure paths are crypto-backend errors and
it never alters the claims, so the model works on the claims
directly.  The bucket set of `Permissions` (a `HashSet<String>`) is a
list with set semantics. -/

structure Permissions where
  buckets : List String
  can_read : Bool
  can_write : Bool
  can_delete : Bool
  can_batch : Bool
  can_delegate : Bool
  can_revoke : Bool
  deriving DecidableEq

/-- `Permissions::all`. -/
def Permissions.all : Permissions :=
  { buckets := [], can_read := true, can_write := true, can_delete := true,
    can_batch := true, can_delegate := true, can_revoke := true }

/-- `Permissions::read_only`. -/
def Permissions.read_only : Permissions :=
  { buckets := [], can_read := true, can_write := false, can_delete := false,
    can_batch := false, can_delegate := false, can_revoke := false }

/-- `Permissions::is_subset_of`: bucket restriction must be equal or
tighter (`∅` means "all buckets"), and every granted capability bit must
be granted by `other`. -/
def Permissions.is_subset_of (self other : Permissions) : Bool :=
  (if other.buckets = [] then true
   else if self.buckets = [] then false
   else self.buckets.all (fun b => decide (b ∈ other.buckets)))
  && (!self.can_read || other.can_read)
  && (!self.can_write || other.can_write)
  && (!self.can_delete || other.can_delete)
  && (!self.can_batch || other.can_batch)
  && (!self.can_delegate || other.can_delegate)
  && (!self.can_revoke || other.can_revoke)

/-- `KeyPacketClaims` (subject, issuer, permissions, delegation chain). -/
structure KeyPacketClaims where
  sub : String
  iss : String
  permissions : Permissions
  delegation_chain : List String
  deriving DecidableEq

/-- `KeyPacketClaims::new`: seeds the delegation chain with the issuer. -/
def KeyPacketClaims.new (subject issuer : String) (perms : Permissions) :
    KeyPacketClaims :=
  { sub := subject, iss := issuer, permissions := perms,
    delegation_chain := [issuer] }

/-- `KeyPacket::delegate` (claims computation): requires the parent's
`can_delegate`, requires the restricted permissions to be a subset of the
parent's, then builds claims for the target signed by the delegator,
whose chain is the parent's chain with the delegator's key id pushed
(the fresh chain `[delegator]` from `KeyPacketClaims::new` is overwritten
with the parent's chain before the push). -/
def delegate (claims : KeyPacketClaims) (target : String)
    (restricted : Permissions) (delegatorKeyId : String) :
    Except WflDBError KeyPacketClaims :=
  if !claims.permissions.can_delegate then .error .InsufficientPermissions
  else if !(restricted.is_subset_of claims.permissions) then
    .error (.AuthorizationFailed "delegated permissions exceed current permissions")
  else
    .ok { KeyPacketClaims.new target delegatorKeyId restricted with
          delegation_chain := claims.delegation_chain ++ [delegatorKeyId] }

/-- C7.  `delegate` fails with `InsufficientPermissions` when the parent
token lacks `can_delegate`, fails with `AuthorizationFailed` when the
restricted permissions are not a subset of the parent's, and otherwise
returns claims whose permissions are exactly the restricted set and whose
delegation chain is the parent's chain with the delegator's key id
appended. -/
theorem delegate_spec (claims : KeyPacketClaims) (target : String)
    (restricted : Permissions) (dk : String) :
    (claims.permissions.can_delegate = false →
      delegate claims target restricted dk = .error .InsufficientPermissions) ∧
    (claims.permissions.can_delegate = true →
      restricted.is_subset_of claims.permissions = false →
      delegate claims target restricted dk =
        .error (.AuthorizationFailed "delegated permissions exceed current permissions")) ∧
    (claims.permissions.can_delegate = true →
      restricted.is_subset_of claims.permissions = true →
      delegate claims target restricted dk = .ok
        { sub := target, iss := dk, permissions := restricted,
          delegation_chain := claims.delegation_chain ++ [dk] }) := by
  refine ⟨?_, ?_, ?_⟩
  · intro h1
    simp [delegate, h1]
  · intro h1 h2
    simp [delegate, h1, h2]
  · intro h1 h2
    simp [delegate, h1, h2, KeyPacketClaims.new]

/-- Witness for C7, exercising all three branches: a read-only parent
cannot delegate; a parent with `can_delegate` but without write rights
cannot delegate `Permissions.all`; a parent with `Permissions.all`
delegates `read_only` and the chain gains the delegator's id. -/
theorem delegate_spec_witness :
    delegate (KeyPacketClaims.new "s" "root" Permissions.read_only) "t"
      Permissions.read_only "d" = .error .InsufficientPermissions ∧
    delegate (KeyPacketClaims.new "s" "root"
        { Permissions.read_only with can_delegate := true }) "t"
      Permissions.all "d" =
      .error (.AuthorizationFailed "delegated permissions exceed current permissions") ∧
    delegate (KeyPacketClaims.new "s" "root" Permissions.all) "t"
      Permissions.read_only "d" = .ok
      { sub := "t", iss := "d", permissions := Permissions.read_only,
        delegation_chain := ["root", "d"] } :=
  ⟨(delegate_spec _ "t" Permissions.read_only "d").1 rfl,
   (delegate_spec _ "t" Permissions.all "d").2.1 rfl rfl,
   (delegate_spec _ "t" Permissions.read_only "d").2.2 rfl rfl⟩

/-! ### Revocation (`wfldb-core/src/auth/delegation.rs`, C8) -/

/-- `DelegationRegistry::revoke_key` restricted to the revoked set (the
audit history and the permission-cache invalidation do not feed back into
validation): a second revocation of the same key is an error, otherwise
the key joins the set. -/
def revoke_key (revoked : List String) (key_id : String) :
    Except WflDBError (List String) :=
  if key_id ∈ revoked then .error (.AuthorizationFailed "key already revoked")
  else .ok (key_id :: revoked)

/-- `DelegationRegistry::validate_key_packet` (also the whole of
`KeyAuthority::authorize_request`, which merely forwards to it): fails
with `KeyRevoked` on a revoked subject, then on the first revoked link of
the delegation chain; the remaining `validate_delegation_chain` step of
the source always returns `Ok`. -/
def validate_key_packet (revoked : List String) (claims : KeyPacketClaims) :
    Except WflDBError Unit :=
  if claims.sub ∈ revoked then .error (.KeyRevoked claims.sub)
  else
    match claims.delegation_chain.find? (fun kid => decide (kid ∈ revoked)) with
    | some kid => .error (.KeyRevoked kid)
    | none => .ok ()

/-- C8.  `revoke_key` puts the key into the revoked set, and once a key
`k` is in the revoked set, every validation of claims whose subject is
`k` or whose delegation chain contains `k` fails with `KeyRevoked`
carrying a revoked key id. -/
theorem revoked_key_validation_fails (revoked : List String) (k : String)
    (claims : KeyPacketClaims) :
    (∀ revoked2, revoke_key revoked k = .ok revoked2 → k ∈ revoked2) ∧
    (k ∈ revoked → (claims.sub = k ∨ k ∈ claims.delegation_chain) →
      ∃ r, r ∈ revoked ∧
        validate_key_packet revoked claims = .error (.KeyRevoked r)) := by
  constructor
  · intro revoked2 hok
    by_cases hmem : k ∈ revoked
    · simp [revoke_key, hmem] at hok
    · simp [revoke_key, hmem] at hok
      rw [← hok]
      exact List.mem_cons_self k revoked
  · intro hk hcase
    by_cases hsub : claims.sub ∈ revoked
    · exact ⟨claims.sub, hsub, by simp [validate_key_packet, hsub]⟩
    · have hchain : k ∈ claims.delegation_chain := by
        rcases hcase with hcs | hcc
        · exact absurd (hcs ▸ hk) hsub
        · exact hcc
      cases hf : claims.delegation_chain.find? (fun kid => decide (kid ∈ revoked)) with
      | none =>
        exfalso
        have hnone := List.find?_eq_none.mp hf k hchain
        simp at hnone
        exact hnone hk
      | some r =>
        have hr : r ∈ revoked := by
          have := List.find?_some hf
          simpa using this
        exact ⟨r, hr, by simp [validate_key_packet, hsub, hf]⟩

/-- Witness for C8: revoking `"a"` in the empty registry yields the set
`["a"]`, and claims whose chain contains `"a"` fail validation against
that set with a `KeyRevoked` error naming a revoked key. -/
theorem revoked_key_validation_fails_witness :
    ("a" : String) ∈ ["a"] ∧
    ∃ r, r ∈ ["a"] ∧
      validate_key_packet ["a"]
        (KeyPacketClaims.new "s" "a" Permissions.read_only) = .error (.KeyRevoked r) :=
  ⟨(revoked_key_validation_fails [] "a"
      (KeyPacketClaims.new "s" "a" Permissions.read_only)).1 ["a"] rfl,
   (revoked_key_validation_fails ["a"] "a"
      (KeyPacketClaims.new "s" "a" Permissions.read_only)).2 (by decide)
      (Or.inr (by decide))⟩

/-! ### Wire frame parsing (`wfldb-net/src/lib.rs`, `protocol.rs`, C9) -/

/-- `u32::from_le_bytes` on four bytes (`% 256` keeps the model total on
`Nat`; the source's inputs are `u8`). -/
def leU32 (b0 b1 b2 b3 : Nat) : Nat :=
  b0 % 256 + 256 * (b1 % 256) + 65536 * (b2 % 256) + 16777216 * (b3 % 256)

/-- Declared header length of a frame: the little-endian `u32` in its
first four bytes (0 when fewer than four bytes exist). -/
def hdrLenOf : List Nat → Nat
  | b0 :: b1 :: b2 :: b3 :: _ => leU32 b0 b1 b2 b3
  | _ => 0

/-- `WireFrame::from_bytes`: frames shorter than 4 bytes are "Frame too
short", frames shorter than `4 + hdr_len` are "Incomplete frame",
everything else splits into header (`bytes[4..4+hdr_len]`) and body
(`bytes[4+hdr_len..]`). -/
def WireFrame.from_bytes (bytes : List Nat) :
    Except WflDBError (List Nat × List Nat) :=
  match bytes with
  | b0 :: b1 :: b2 :: b3 :: rest =>
    let header_len := leU32 b0 b1 b2 b3
    if (b0 :: b1 :: b2 :: b3 :: rest).length < 4 + header_len then
      .error (.Internal "Incomplete frame")
    else .ok (rest.take header_len, rest.drop header_len)
  | _ => .error (.Internal "Frame too short")

/-- `ProtocolError` of `wfldb-net/src/protocol.rs`. -/
inductive ProtocolError where
  | InvalidFrame (msg : String)
  | HeaderTooLarge (size max : Nat)
  | UnsupportedVersion (v : Nat)
  | MalformedHeader (msg : String)
  | MissingField (msg : String)
  deriving DecidableEq

/-- `PROTOCOL_VERSION = 1`. -/
def PROTOCOL_VERSION : Nat := 1

/-- `validate_frame` of `protocol.rs` — the only place the
`MAX_HEADER_SIZE` bound is checked; `WireFrame::from_bytes` never calls
it. -/
def validate_frame (header_size protocol_version : Nat) :
    Except ProtocolError Unit :=
  if header_size > MAX_HEADER_SIZE then
    .error (.HeaderTooLarge header_size MAX_HEADER_SIZE)
  else if protocol_version ≠ PROTOCOL_VERSION then
    .error (.UnsupportedVersion protocol_version)
  else .ok ()

/-- Counterexample to C9 as stated: a complete frame whose declared
header length is 65537 (> `MAX_HEADER_SIZE` = 65536) parses
successfully — `WireFrame::from_bytes` performs no header-size bound
check. -/
theorem wire_frame_counterexample :
    hdrLenOf ((1 : Nat) :: 0 :: 1 :: 0 :: List.replicate 65537 7) = 65537 ∧
    MAX_HEADER_SIZE < 65537 ∧
    WireFrame.from_bytes ((1 : Nat) :: 0 :: 1 :: 0 :: List.replicate 65537 7) =
      .ok (List.replicate 65537 7, []) := by
  refine ⟨by simp only [hdrLenOf]; rfl, by decide, ?_⟩
  have hrep : (List.replicate 65537 (7 : Nat)).length = 65537 :=
    List.length_replicate 65537 7
  have hle : leU32 1 0 1 0 = 65537 := rfl
  have hlen : ((1 : Nat) :: 0 :: 1 :: 0 :: List.replicate 65537 7).length = 65541 := by
    rw [List.length_cons, List.length_cons, List.length_cons, List.length_cons, hrep]
  show (if ((1 : Nat) :: 0 :: 1 :: 0 :: List.replicate 65537 7).length <
          4 + leU32 1 0 1 0 then
        (.error (.Internal "Incomplete frame") :
          Except WflDBError (List Nat × List Nat))
      else .ok ((List.replicate 65537 7).take (leU32 1 0 1 0),
        (List.replicate 65537 7).drop (leU32 1 0 1 0))) =
      .ok (List.replicate 65537 7, [])
  rw [hle, hlen]
  rw [if_neg (by omega)]
  rw [List.take_of_length_le (by rw [hrep]), List.drop_eq_nil_of_le (by rw [hrep])]

/-- C9 (amended).  `WireFrame::from_bytes` rejects exactly the frames
shorter than 4 bytes ("Frame too short") and the frames shorter than
`4 + hdr_len` ("Incomplete frame"); every complete frame is accepted and
split after the 4-byte length word into a header of the declared length
and the remaining body, with no bound on `hdr_len` — the
`MAX_HEADER_SIZE` check rejecting oversized headers with
`HeaderTooLarge` lives only in the separate helper `validate_frame`,
which the parse path never invokes. -/
theorem wire_frame_parse_spec (bytes : List Nat) :
    (bytes.length < 4 →
      WireFrame.from_bytes bytes = .error (.Internal "Frame too short")) ∧
    (4 ≤ bytes.length → bytes.length < 4 + hdrLenOf bytes →
      WireFrame.from_bytes bytes = .error (.Internal "Incomplete frame")) ∧
    (4 + hdrLenOf bytes ≤ bytes.length →
      ∃ hd bd, WireFrame.from_bytes bytes = .ok (hd, bd) ∧
        hd.length = hdrLenOf bytes ∧ hd ++ bd = bytes.drop 4) ∧
    (∀ hsz ver, MAX_HEADER_SIZE < hsz →
      validate_frame hsz ver = .error (.HeaderTooLarge hsz MAX_HEADER_SIZE)) := by
  refine ⟨?_, ?_, ?_, ?_⟩
  · intro hlen
    rcases bytes with _ | ⟨b0, _ | ⟨b1, _ | ⟨b2, _ | ⟨b3, rest⟩⟩⟩⟩
    · rfl
    · rfl
    · rfl
    · rfl
    · simp at hlen
      omega
  · intro h4 hlt
    rcases bytes with _ | ⟨b0, _ | ⟨b1, _ | ⟨b2, _ | ⟨b3, rest⟩⟩⟩⟩
    · simp at h4
    · simp at h4
    · simp at h4
    · simp at h4
    · have hlt2 : (b0 :: b1 :: b2 :: b3 :: rest).length <
          4 + leU32 b0 b1 b2 b3 := hlt
      rw [WireFrame.from_bytes, if_pos hlt2]
  · intro hge
    rcases bytes with _ | ⟨b0, _ | ⟨b1, _ | ⟨b2, _ | ⟨b3, rest⟩⟩⟩⟩
    · simp [hdrLenOf] at hge
    · simp [hdrLenOf] at hge
    · simp [hdrLenOf] at hge
    · simp [hdrLenOf] at hge
    · have hlen : (b0 :: b1 :: b2 :: b3 :: rest).length = rest.length + 4 := by
        simp only [List.length_cons]
      have hge2 : 4 + leU32 b0 b1 b2 b3 ≤ rest.length + 4 := by
        simp only [hdrLenOf] at hge
        rw [hlen] at hge
        exact hge
      have hrest : leU32 b0 b1 b2 b3 ≤ rest.length := by omega
      have hnot : ¬ ((b0 :: b1 :: b2 :: b3 :: rest).length <
          4 + leU32 b0 b1 b2 b3) := by
        rw [hlen]
        omega
      refine ⟨rest.take (leU32 b0 b1 b2 b3), rest.drop (leU32 b0 b1 b2 b3),
        ?_, ?_, ?_⟩
      · rw [WireFrame.from_bytes, if_neg hnot]
      · simp only [hdrLenOf]
        rw [List.length_take]
        omega
      · rw [List.take_append_drop]
        rfl
  · intro hsz ver hgt
    simp [validate_frame, hgt]

/-- Witness for C9 on a small complete frame: header length 2, header
`[9, 9]`, empty body. -/
theorem wire_frame_parse_spec_witness :
    ((2 : Nat) :: 0 :: 0 :: 0 :: [9, 9]).length < 4 + hdrLenOf ((2 : Nat) :: 0 :: 0 :: 0 :: [9, 9]) ∨
    (∃ hd bd, WireFrame.from_bytes ((2 : Nat) :: 0 :: 0 :: 0 :: [9, 9]) = .ok (hd, bd) ∧
      hd.length = hdrLenOf ((2 : Nat) :: 0 :: 0 :: 0 :: [9, 9]) ∧
      hd ++ bd = ((2 : Nat) :: 0 :: 0 :: 0 :: [9, 9]).drop 4) :=
  Or.inr ((wire_frame_parse_spec ((2 : Nat) :: 0 :: 0 :: 0 :: [9, 9])).2.2.1 (by decide))

end WflDB

